import Mathlib

/-!
Verification of `neurokit2/microstates/microstates_quality.py`.

The module contains three pure numerical functions over real matrices:

* `_correlate_vectors(A, B, axis=0)` — pairwise correlation of the columns
  (for `axis = 0`) of two equal-shaped matrices;
* `microstates_gev(eeg, microstates, segmentation, gfp)` — global explained
  variance of a microstate segmentation;
* `microstates_crossvalidation(eeg, microstates, gfp, n_channels, n_samples)`
  — the cross-validation criterion used to choose the number of microstates.

Matrices are embedded as functions `Fin n → Fin m → ℝ` and numpy reductions
as `Finset` sums over `Fin`.  Python float arithmetic is modelled by real
arithmetic (with Lean's total division, so `x / 0 = 0`).
-/

namespace MicrostatesQuality

open Finset

/-- Model of `np.mean(v)` for a vector: sum of the entries divided by the length. -/
noncomputable def np_mean {n : ℕ} (v : Fin n → ℝ) : ℝ :=
  (∑ i, v i) / n

/-- Model of `np.linalg.norm(v)` for a vector: the Euclidean norm. -/
noncomputable def euclidean_norm {n : ℕ} (v : Fin n → ℝ) : ℝ :=
  Real.sqrt (∑ i, (v i) ^ 2)

/-- Model of `np.std(v)`: population standard deviation, the square root of the mean
squared deviation from the mean. -/
noncomputable def np_std {n : ℕ} (v : Fin n → ℝ) : ℝ :=
  Real.sqrt ((∑ i, (v i - np_mean v) ^ 2) / n)

/-- The mean-centering `An = A - np.mean(A, axis=axis)` applied to a single
vector. -/
noncomputable def centered {n : ℕ} (v : Fin n → ℝ) : Fin n → ℝ :=
  fun i => v i - np_mean v

/-- The per-pair computation of `_correlate_vectors`: center each vector at
its mean, divide by its Euclidean norm, and sum the elementwise products. -/
noncomputable def corrPair {n : ℕ} (u v : Fin n → ℝ) : ℝ :=
  ∑ i, (centered u i / euclidean_norm (centered u)) *
        (centered v i / euclidean_norm (centered v))

/-- Model of `_correlate_vectors(A, B, axis=0)`.  `np.mean(A, axis=0)` and
`np.linalg.norm(An, axis=0)` are per-column statistics of shape `(m,)`, and
numpy broadcasting applies them columnwise, so each output entry `j` is the
centered-normalized dot product of column `j` of `A` with column `j` of `B`. -/
noncomputable def correlate_vectors {n m : ℕ} (A B : Fin n → Fin m → ℝ) :
    Fin m → ℝ :=
  let An : Fin n → Fin m → ℝ := fun i j => A i j - np_mean (fun i2 => A i2 j)
  let Bn : Fin n → Fin m → ℝ := fun i j => B i j - np_mean (fun i2 => B i2 j)
  let An2 : Fin n → Fin m → ℝ := fun i j => An i j / euclidean_norm (fun i2 => An i2 j)
  let Bn2 : Fin n → Fin m → ℝ := fun i j => Bn i j / euclidean_norm (fun i2 => Bn i2 j)
  fun j => ∑ i, An2 i j * Bn2 i j

theorem correlate_vectors_apply {n m : ℕ} (A B : Fin n → Fin m → ℝ) (j : Fin m) :
    correlate_vectors A B j =
      corrPair (fun i => A i j) (fun i => B i j) := rfl

/-- Model of `_correlate_vectors(A, B, axis=1)` as the code actually executes on a
square matrix.  `np.mean(A, axis=1)` has shape `(n,)`; subtracting it from the
`(n, n)` matrix broadcasts it along the LAST axis, so entry `(i, j)` is
centered by the mean of row `j` (not row `i`).  Likewise
`An /= np.linalg.norm(An, axis=1)` divides entry `(i, j)` by the norm of row
`j` of the (already mis-centered) matrix.  On non-square input the same
broadcasting raises a shape error, which has no value to model here. -/
noncomputable def correlate_vectors_axis1 {n : ℕ} (A B : Fin n → Fin n → ℝ) :
    Fin n → ℝ :=
  let An : Fin n → Fin n → ℝ := fun i j => A i j - np_mean (A j)
  let Bn : Fin n → Fin n → ℝ := fun i j => B i j - np_mean (B j)
  let An2 : Fin n → Fin n → ℝ := fun i j => An i j / euclidean_norm (An j)
  let Bn2 : Fin n → Fin n → ℝ := fun i j => Bn i j / euclidean_norm (Bn j)
  fun i => ∑ j, An2 i j * Bn2 i j

/-- Model of `microstates_gev` when `gfp` is passed as a sequence: the
`isinstance(gfp, (list, np.ndarray, pd.Series))` branch computes
`gfp_sum_sq = np.sum(gfp**2)`, then
`gev = np.sum((gfp * map_corr) ** 2) / gfp_sum_sq` with
`map_corr = _correlate_vectors(eeg, microstates[segmentation].T)`. -/
noncomputable def microstates_gev {C T K : ℕ} (eeg : Fin C → Fin T → ℝ)
    (microstates : Fin K → Fin C → ℝ) (segmentation : Fin T → Fin K)
    (gfp : Fin T → ℝ) : ℝ :=
  let gfp_sum_sq : ℝ := ∑ t, (gfp t) ^ 2
  let map_corr : Fin T → ℝ :=
    correlate_vectors eeg (fun c t => microstates (segmentation t) c)
  (∑ t, (gfp t * map_corr t) ^ 2) / gfp_sum_sq

/-- Model of `microstates_gev` when `gfp` is passed as a scalar: the `else` branch sets
`gfp_sum_sq = gfp`, and line 34 then reuses the same scalar `gfp` as the
per-sample weight in `np.sum((gfp * map_corr) ** 2) / gfp_sum_sq`. -/
noncomputable def microstates_gev_scalar {C T K : ℕ} (eeg : Fin C → Fin T → ℝ)
    (microstates : Fin K → Fin C → ℝ) (segmentation : Fin T → Fin K)
    (gfp : ℝ) : ℝ :=
  let gfp_sum_sq : ℝ := gfp
  let map_corr : Fin T → ℝ :=
    correlate_vectors eeg (fun c t => microstates (segmentation t) c)
  (∑ t, (gfp * map_corr t) ^ 2) / gfp_sum_sq

/-- Model of `np.argmax` over a nonempty vector of reals: the index of the maximal
value, taking the first index in case of ties (numpy's documented
behaviour, and the behaviour of `List.argmax` on `List.finRange`). -/
noncomputable def np_argmax {k : ℕ} (f : Fin (k + 1) → ℝ) : Fin (k + 1) :=
  (List.argmax f (List.finRange (k + 1))).getD 0

/-- The final two lines of `microstates_crossvalidation`:
`criterion = var * (n_channels - 1)**2 / (n_channels - len(microstates) - 1.)**2`
applied to the residual-variance term `var`. -/
noncomputable def cv_criterion_step (var : ℝ) (n_channels num_states : ℕ) : ℝ :=
  var * ((n_channels : ℝ) - 1) ^ 2 / ((n_channels : ℝ) - (num_states : ℝ) - 1) ^ 2

/-- Model of `microstates_crossvalidation(eeg, microstates, gfp, n_channels, n_samples)`.
Line by line:
`cluster = np.dot(eeg.T, microstates.T)` has entries `∑ c, eeg c t * microstates k c`;
`cluster /= (n_channels*np.outer(gfp, np.std(microstates, axis=1)))` divides
entry `(t, k)` by `n_channels * (gfp t * np_std (microstates k))`;
`sum_sq = np.argmax(cluster**2, axis=1)` is the per-sample argmax of the
squared normalized projections;
`var = np.sum(eeg.T**2) - np.sum(np.sum(microstates[sum_sq, :]*eeg.T, axis=1)**2)`;
`var /= (n_samples*(n_channels-1))`; the final step is `cv_criterion_step`
with `len(microstates) = K + 1`. -/
noncomputable def microstates_crossvalidation {C T K : ℕ}
    (eeg : Fin C → Fin T → ℝ) (microstates : Fin (K + 1) → Fin C → ℝ)
    (gfp : Fin T → ℝ) (n_channels n_samples : ℕ) : ℝ :=
  let cluster : Fin T → Fin (K + 1) → ℝ := fun t k =>
    (∑ c, eeg c t * microstates k c) /
      ((n_channels : ℝ) * (gfp t * np_std (microstates k)))
  let sum_sq : Fin T → Fin (K + 1) := fun t => np_argmax (fun k => (cluster t k) ^ 2)
  let var : ℝ := (∑ t, ∑ c, (eeg c t) ^ 2) -
    ∑ t, (∑ c, microstates (sum_sq t) c * eeg c t) ^ 2
  cv_criterion_step (var / ((n_samples : ℝ) * ((n_channels : ℝ) - 1)))
    n_channels (K + 1)

/-- A vector is non-constant when two of its entries differ. -/
def Nonconst {n : ℕ} (v : Fin n → ℝ) : Prop :=
  ∃ i j, v i ≠ v j

/-- Negate one row of the microstates matrix, leaving the others unchanged. -/
def negRow {K C : ℕ} (microstates : Fin K → Fin C → ℝ) (k : Fin K) :
    Fin K → Fin C → ℝ :=
  fun k2 c => if k2 = k then - microstates k2 c else microstates k2 c

/-- Pearson correlation written directly from the spec's description of the
reference computation: the covariance of the two vectors divided by the
product of their standard deviations (population convention, matching
`np_std`). -/
noncomputable def pearson_direct {n : ℕ} (u v : Fin n → ℝ) : ℝ :=
  ((∑ i, (u i - np_mean u) * (v i - np_mean v)) / n) / (np_std u * np_std v)

/-! ### Basic lemmas about the correlation primitive -/

theorem np_mean_neg {n : ℕ} (v : Fin n → ℝ) :
    np_mean (fun i => - v i) = - np_mean v := by
  simp [np_mean, neg_div]

theorem centered_neg {n : ℕ} (v : Fin n → ℝ) :
    centered (fun i => - v i) = fun i => - centered v i := by
  funext i
  simp [centered, np_mean_neg]
  ring

theorem euclidean_norm_neg {n : ℕ} (v : Fin n → ℝ) :
    euclidean_norm (fun i => - v i) = euclidean_norm v := by
  simp [euclidean_norm]

theorem np_std_neg {n : ℕ} (v : Fin n → ℝ) :
    np_std (fun i => - v i) = np_std v := by
  have h : ∀ i, (- v i - np_mean (fun i2 => - v i2)) ^ 2 = (v i - np_mean v) ^ 2 := by
    intro i
    rw [np_mean_neg]
    ring
  simp only [np_std]
  congr 1
  congr 1
  exact Finset.sum_congr rfl fun i _ => h i

theorem corrPair_comm {n : ℕ} (u v : Fin n → ℝ) :
    corrPair u v = corrPair v u := by
  unfold corrPair
  exact Finset.sum_congr rfl fun i _ => mul_comm _ _

theorem corrPair_neg_right {n : ℕ} (u v : Fin n → ℝ) :
    corrPair u (fun i => - v i) = - corrPair u v := by
  unfold corrPair
  rw [centered_neg, euclidean_norm_neg]
  rw [← Finset.sum_neg_distrib]
  refine Finset.sum_congr rfl fun i _ => ?_
  rw [neg_div, mul_neg]

theorem corrPair_neg_left {n : ℕ} (u v : Fin n → ℝ) :
    corrPair (fun i => - u i) v = - corrPair u v := by
  rw [corrPair_comm, corrPair_neg_right, corrPair_comm]

theorem corrPair_eq_div {n : ℕ} (u v : Fin n → ℝ) :
    corrPair u v = (∑ i, centered u i * centered v i) /
      (euclidean_norm (centered u) * euclidean_norm (centered v)) := by
  unfold corrPair
  simp only [div_mul_div_comm]
  rw [← Finset.sum_div]

theorem centered_sum_sq_pos {n : ℕ} {v : Fin n → ℝ} (hv : Nonconst v) :
    0 < ∑ i, (centered v i) ^ 2 := by
  obtain ⟨i, j, hij⟩ := hv
  have hex : ∃ i0, centered v i0 ≠ 0 := by
    by_contra hall
    push_neg at hall
    have hmean : ∀ i0, v i0 = np_mean v := fun i0 => by
      have := hall i0
      simpa [centered, sub_eq_zero] using this
    exact hij ((hmean i).trans (hmean j).symm)
  obtain ⟨i0, hi0⟩ := hex
  refine Finset.sum_pos' (fun k _ => sq_nonneg _) ⟨i0, Finset.mem_univ i0, ?_⟩
  exact (sq_nonneg _).lt_of_ne (Ne.symm (pow_ne_zero 2 hi0))

theorem nonconst_pos {n : ℕ} {v : Fin n → ℝ} (hv : Nonconst v) : 0 < n := by
  obtain ⟨i, _, _⟩ := hv
  exact i.pos

theorem euclidean_norm_centered_pos {n : ℕ} {v : Fin n → ℝ} (hv : Nonconst v) :
    0 < euclidean_norm (centered v) :=
  Real.sqrt_pos.2 (centered_sum_sq_pos hv)

theorem euclidean_norm_mul_self {n : ℕ} (w : Fin n → ℝ) :
    euclidean_norm w * euclidean_norm w = ∑ i, (w i) ^ 2 :=
  Real.mul_self_sqrt (Finset.sum_nonneg fun i _ => sq_nonneg _)

theorem corrPair_self {n : ℕ} {u : Fin n → ℝ} (hu : Nonconst u) :
    corrPair u u = 1 := by
  rw [corrPair_eq_div, euclidean_norm_mul_self]
  have h : ∑ i, centered u i * centered u i = ∑ i, (centered u i) ^ 2 :=
    Finset.sum_congr rfl fun i _ => (sq (centered u i)).symm
  rw [h]
  exact div_self (centered_sum_sq_pos hu).ne'

theorem corrPair_abs_le_one {n : ℕ} {u v : Fin n → ℝ}
    (hu : Nonconst u) (hv : Nonconst v) : |corrPair u v| ≤ 1 := by
  rw [corrPair_eq_div]
  have hNu := euclidean_norm_centered_pos hu
  have hNv := euclidean_norm_centered_pos hv
  rw [abs_div, abs_of_pos (mul_pos hNu hNv)]
  rw [div_le_one (mul_pos hNu hNv)]
  have hcs : (∑ i, centered u i * centered v i) ^ 2 ≤
      (∑ i, (centered u i) ^ 2) * ∑ i, (centered v i) ^ 2 :=
    Finset.sum_mul_sq_le_sq_mul_sq _ _ _
  have habs : |∑ i, centered u i * centered v i| =
      Real.sqrt ((∑ i, centered u i * centered v i) ^ 2) :=
    (Real.sqrt_sq_eq_abs _).symm
  rw [habs]
  calc Real.sqrt ((∑ i, centered u i * centered v i) ^ 2)
      ≤ Real.sqrt ((∑ i, (centered u i) ^ 2) * ∑ i, (centered v i) ^ 2) :=
        Real.sqrt_le_sqrt hcs
    _ = euclidean_norm (centered u) * euclidean_norm (centered v) :=
        Real.sqrt_mul (Finset.sum_nonneg fun i _ => sq_nonneg _) _

theorem corrPair_eq_pearson {n : ℕ} {u v : Fin n → ℝ}
    (hu : Nonconst u) (hv : Nonconst v) :
    corrPair u v = pearson_direct u v := by
  have hn : 0 < n := nonconst_pos hu
  have hnR : (0 : ℝ) < (n : ℝ) := by exact_mod_cast hn
  have hSu := centered_sum_sq_pos hu
  have hSv := centered_sum_sq_pos hv
  have hstdu : np_std u = euclidean_norm (centered u) / Real.sqrt n := by
    unfold np_std euclidean_norm
    rw [Real.sqrt_div (Finset.sum_nonneg fun i _ => sq_nonneg _)]
    rfl
  have hstdv : np_std v = euclidean_norm (centered v) / Real.sqrt n := by
    unfold np_std euclidean_norm
    rw [Real.sqrt_div (Finset.sum_nonneg fun i _ => sq_nonneg _)]
    rfl
  have hs : Real.sqrt n * Real.sqrt n = (n : ℝ) := Real.mul_self_sqrt hnR.le
  have hsne : Real.sqrt (n : ℝ) ≠ 0 := (Real.sqrt_pos.2 hnR).ne'
  have hNu := (euclidean_norm_centered_pos hu).ne'
  have hNv := (euclidean_norm_centered_pos hv).ne'
  rw [corrPair_eq_div]
  unfold pearson_direct
  rw [hstdu, hstdv]
  have hnum : ∑ i, (u i - np_mean u) * (v i - np_mean v) =
      ∑ i, centered u i * centered v i := rfl
  rw [hnum, div_mul_div_comm, hs]
  field_simp

theorem np_mean_add_const {n : ℕ} (hn : 0 < n) (u : Fin n → ℝ) (c : ℝ) :
    np_mean (fun i => u i + c) = np_mean u + c := by
  have hnR : ((n : ℕ) : ℝ) ≠ 0 := Nat.cast_ne_zero.2 hn.ne'
  unfold np_mean
  rw [Finset.sum_add_distrib, Finset.sum_const, Finset.card_univ, Fintype.card_fin,
    nsmul_eq_mul, add_div, mul_div_cancel_left₀ c hnR]

theorem centered_add_const {n : ℕ} (hn : 0 < n) (u : Fin n → ℝ) (c : ℝ) :
    centered (fun i => u i + c) = centered u := by
  funext i
  simp only [centered, np_mean_add_const hn]
  ring

theorem np_mean_smul {n : ℕ} (u : Fin n → ℝ) (s : ℝ) :
    np_mean (fun i => s * u i) = s * np_mean u := by
  unfold np_mean
  rw [← Finset.mul_sum, mul_div_assoc]

theorem centered_smul {n : ℕ} (u : Fin n → ℝ) (s : ℝ) :
    centered (fun i => s * u i) = fun i => s * centered u i := by
  funext i
  simp only [centered, np_mean_smul]
  ring

theorem euclidean_norm_smul {n : ℕ} (w : Fin n → ℝ) {s : ℝ} (hs : 0 ≤ s) :
    euclidean_norm (fun i => s * w i) = s * euclidean_norm w := by
  unfold euclidean_norm
  have h : ∀ i : Fin n, (s * w i) ^ 2 = s ^ 2 * (w i) ^ 2 := fun i => mul_pow s (w i) 2
  rw [Finset.sum_congr rfl fun i _ => h i, ← Finset.mul_sum,
    Real.sqrt_mul (sq_nonneg s), Real.sqrt_sq hs]

theorem corrPair_add_const_left {n : ℕ} (hn : 0 < n) (u v : Fin n → ℝ) (c : ℝ) :
    corrPair (fun i => u i + c) v = corrPair u v := by
  unfold corrPair
  rw [centered_add_const hn]

theorem corrPair_add_const_right {n : ℕ} (hn : 0 < n) (u v : Fin n → ℝ) (c : ℝ) :
    corrPair u (fun i => v i + c) = corrPair u v := by
  rw [corrPair_comm, corrPair_add_const_left hn, corrPair_comm]

theorem corrPair_smul_left {n : ℕ} (u v : Fin n → ℝ) {s : ℝ} (hs : 0 < s) :
    corrPair (fun i => s * u i) v = corrPair u v := by
  unfold corrPair
  simp only [centered_smul, euclidean_norm_smul (centered u) hs.le]
  refine Finset.sum_congr rfl fun i _ => ?_
  rw [mul_div_mul_left _ _ hs.ne']

theorem corrPair_smul_right {n : ℕ} (u v : Fin n → ℝ) {s : ℝ} (hs : 0 < s) :
    corrPair u (fun i => s * v i) = corrPair u v := by
  rw [corrPair_comm, corrPair_smul_left _ _ hs, corrPair_comm]

/-! ### Claim theorems -/

/-- C1: for every eeg matrix of shape (C, T), microstates matrix of shape
(K, C), segmentation of length T with entries in [0, K), and gfp passed as a
length-T sequence, `microstates_gev` returns exactly the sum over samples t of
`(gfp[t] * corr[t])^2` divided by the sum over t of `gfp[t]^2`, where `corr[t]`
is the pairwise correlation (over channels) between eeg's column t and the row
`microstates[segmentation[t]]`. -/
theorem gev_eq_weighted_corr_formula {C T K : ℕ} (eeg : Fin C → Fin T → ℝ)
    (microstates : Fin K → Fin C → ℝ) (segmentation : Fin T → Fin K)
    (gfp : Fin T → ℝ) :
    microstates_gev eeg microstates segmentation gfp =
      (∑ t, (gfp t *
        corrPair (fun c => eeg c t) (fun c => microstates (segmentation t) c)) ^ 2) /
        ∑ t, (gfp t) ^ 2 := rfl

/-- C4: for every pair of equal-shaped matrices A and B whose corresponding
column vectors are non-constant, each coefficient returned by
`correlate_vectors` (axis = 0) equals the Pearson correlation of the
corresponding column pair computed by the direct definition (covariance of
the two columns divided by the product of their standard deviations). -/
theorem correlate_vectors_eq_pearson {n m : ℕ} (A B : Fin n → Fin m → ℝ)
    (j : Fin m) (hA : Nonconst fun i => A i j) (hB : Nonconst fun i => B i j) :
    correlate_vectors A B j =
      pearson_direct (fun i => A i j) (fun i => B i j) := by
  rw [correlate_vectors_apply]
  exact corrPair_eq_pearson hA hB

/-- Witness matrices for the correlation claims: two non-constant columns. -/
def wA : Fin 2 → Fin 1 → ℝ := fun i _ => if i = 0 then 0 else 1

def wB : Fin 2 → Fin 1 → ℝ := fun i _ => if i = 0 then 0 else 2

theorem wA_col_nonconst : Nonconst fun i => wA i 0 :=
  ⟨0, 1, by norm_num [wA]⟩

theorem wB_col_nonconst : Nonconst fun i => wB i 0 :=
  ⟨0, 1, by norm_num [wB]⟩

/-- Witness for C4 at concrete non-constant columns. -/
theorem correlate_vectors_eq_pearson_witness :
    (Nonconst fun i => wA i 0) ∧ (Nonconst fun i => wB i 0) ∧
    correlate_vectors wA wB 0 =
      pearson_direct (fun i => wA i 0) (fun i => wB i 0) :=
  ⟨wA_col_nonconst, wB_col_nonconst,
    correlate_vectors_eq_pearson wA wB 0 wA_col_nonconst wB_col_nonconst⟩

/-- C5: for every pair of equal-shaped matrices and every corresponding pair
of non-constant column vectors, the returned coefficient lies in [-1, 1]; for
identical columns it is 1; for exactly negated columns it is -1. -/
theorem correlate_vectors_bounds {n m : ℕ} (A B : Fin n → Fin m → ℝ)
    (j : Fin m) (hA : Nonconst fun i => A i j) (hB : Nonconst fun i => B i j) :
    (-1 ≤ correlate_vectors A B j ∧ correlate_vectors A B j ≤ 1) ∧
    ((∀ i, A i j = B i j) → correlate_vectors A B j = 1) ∧
    ((∀ i, A i j = - B i j) → correlate_vectors A B j = -1) := by
  refine ⟨?_, ?_, ?_⟩
  · rw [correlate_vectors_apply]
    exact abs_le.mp (corrPair_abs_le_one hA hB)
  · intro hid
    rw [correlate_vectors_apply, funext hid]
    exact corrPair_self hB
  · intro hneg
    rw [correlate_vectors_apply]
    have h : (fun i => A i j) = (fun i => - B i j) := funext hneg
    rw [h, corrPair_neg_left, corrPair_self hB]

/-- Witness for C5 at concrete identical non-constant columns. -/
theorem correlate_vectors_bounds_witness :
    (Nonconst fun i => wA i 0) ∧
    ((-1 ≤ correlate_vectors wA wA 0 ∧ correlate_vectors wA wA 0 ≤ 1) ∧
      ((∀ i, wA i 0 = wA i 0) → correlate_vectors wA wA 0 = 1) ∧
      ((∀ i, wA i 0 = - wA i 0) → correlate_vectors wA wA 0 = -1)) :=
  ⟨wA_col_nonconst,
    correlate_vectors_bounds wA wA 0 wA_col_nonconst wA_col_nonconst⟩

/-- C6: `correlate_vectors` is invariant to adding a constant offset to either
matrix and to positive scalar rescaling of either matrix, for matrices with
non-constant columns. -/
theorem correlate_vectors_invariance {n m : ℕ} (A B : Fin n → Fin m → ℝ)
    (c s : ℝ) (hA : ∀ j, Nonconst fun i => A i j)
    (hB : ∀ j, Nonconst fun i => B i j) (hs : 0 < s) :
    correlate_vectors (fun i j => A i j + c) B = correlate_vectors A B ∧
    correlate_vectors A (fun i j => B i j + c) = correlate_vectors A B ∧
    correlate_vectors (fun i j => s * A i j) B = correlate_vectors A B ∧
    correlate_vectors A (fun i j => s * B i j) = correlate_vectors A B := by
  refine ⟨funext fun j => ?_, funext fun j => ?_, funext fun j => ?_,
    funext fun j => ?_⟩
  · rw [correlate_vectors_apply, correlate_vectors_apply]
    exact corrPair_add_const_left (nonconst_pos (hA j)) _ _ c
  · rw [correlate_vectors_apply, correlate_vectors_apply]
    exact corrPair_add_const_right (nonconst_pos (hA j)) _ _ c
  · rw [correlate_vectors_apply, correlate_vectors_apply]
    exact corrPair_smul_left _ _ hs
  · rw [correlate_vectors_apply, correlate_vectors_apply]
    exact corrPair_smul_right _ _ hs

/-- Witness for C6 at concrete non-constant matrices, offset 1 and scale 2. -/
theorem correlate_vectors_invariance_witness :
    (∀ j, Nonconst fun i => wA i j) ∧ (∀ j, Nonconst fun i => wB i j) ∧
    (0 : ℝ) < 2 ∧
    (correlate_vectors (fun i j => wA i j + 1) wB = correlate_vectors wA wB ∧
      correlate_vectors wA (fun i j => wB i j + 1) = correlate_vectors wA wB ∧
      correlate_vectors (fun i j => 2 * wA i j) wB = correlate_vectors wA wB ∧
      correlate_vectors wA (fun i j => 2 * wB i j) = correlate_vectors wA wB) :=
  ⟨fun j => ⟨0, 1, by norm_num [wA]⟩, fun j => ⟨0, 1, by norm_num [wB]⟩,
    by norm_num,
    correlate_vectors_invariance wA wB 1 2 (fun j => ⟨0, 1, by norm_num [wA]⟩)
      (fun j => ⟨0, 1, by norm_num [wB]⟩) (by norm_num)⟩

/-- Concrete eeg for the gev scalar/sequence comparison: both columns are
`(1, -1)`. -/
def e2 : Fin 2 → Fin 2 → ℝ := fun c _ => if c = 0 then 1 else -1

/-- One microstate, `(1, -1)`. -/
def m2 : Fin 1 → Fin 2 → ℝ := fun _ c => if c = 0 then 1 else -1

/-- Segmentation assigning every sample to microstate 0. -/
def s2 : Fin 2 → Fin 1 := fun _ => 0

/-- GFP sequence `(1, 2)`. -/
def g2 : Fin 2 → ℝ := fun t => if t = 0 then 1 else 2

theorem e2_corr_one : ∀ t : Fin 2,
    correlate_vectors e2 (fun c t2 => m2 (s2 t2) c) t = 1 := by
  intro t
  rw [correlate_vectors_apply]
  exact corrPair_self ⟨0, 1, by norm_num [e2]⟩

/-- C2: the sequence call and the scalar call of `microstates_gev` disagree.
With eeg columns both `(1, -1)`, one microstate `(1, -1)`, segmentation
`(0, 0)` and gfp sequence `(1, 2)` (sum of squares 5), every per-sample
correlation is 1, so the sequence call returns `(1² + 2²)/5 = 1` while the
scalar call returns `((5·1)² + (5·1)²)/5 = 10`: the code reuses the scalar
`gfp` as the per-sample weight on line 34. -/
theorem gev_scalar_mismatch :
    microstates_gev e2 m2 s2 g2 = 1 ∧
    microstates_gev_scalar e2 m2 s2 (∑ t, (g2 t) ^ 2) = 10 ∧
    microstates_gev e2 m2 s2 g2 ≠
      microstates_gev_scalar e2 m2 s2 (∑ t, (g2 t) ^ 2) := by
  have hss : (∑ t, (g2 t) ^ 2) = (5 : ℝ) := by
    norm_num [Fin.sum_univ_two, g2]
  have h1 : microstates_gev e2 m2 s2 g2 = 1 := by
    simp only [microstates_gev]
    rw [Fin.sum_univ_two, Fin.sum_univ_two, e2_corr_one 0, e2_corr_one 1]
    norm_num [g2]
  have h2 : microstates_gev_scalar e2 m2 s2 (∑ t, (g2 t) ^ 2) = 10 := by
    rw [hss]
    simp only [microstates_gev_scalar]
    rw [Fin.sum_univ_two, e2_corr_one 0, e2_corr_one 1]
    norm_num
  exact ⟨h1, h2, by rw [h1, h2]; norm_num⟩

/-- Zero signal: 4 channels, 1 sample. -/
def e7 : Fin 4 → Fin 1 → ℝ := fun _ _ => 0

/-- A 1-state topography set. -/
def m7a : Fin 1 → Fin 4 → ℝ := fun _ c => if c = 0 then 1 else 0

/-- A 2-state topography set over the same 4 channels. -/
def m7b : Fin 2 → Fin 4 → ℝ := fun _ c => if c = 0 then 1 else 0

/-- GFP for the zero-signal example. -/
def g7 : Fin 1 → ℝ := fun _ => 1

/-- C7 counterexample: with the zero signal the residual-variance term is 0
for both the 1-state and the 2-state solution (1 < 2 < 4 - 1 = nChannels - 1),
and the returned criterion is 0 in both cases — not strictly greater. -/
theorem crossvalidation_penalty_not_strict :
    (1 : ℕ) < 2 ∧ (2 : ℕ) < 4 - 1 ∧
    ¬ (microstates_crossvalidation e7 m7a g7 4 1 <
        microstates_crossvalidation e7 m7b g7 4 1) := by
  have ha : microstates_crossvalidation e7 m7a g7 4 1 = 0 := by
    simp [microstates_crossvalidation, cv_criterion_step, e7]
  have hb : microstates_crossvalidation e7 m7b g7 4 1 = 0 := by
    simp [microstates_crossvalidation, cv_criterion_step, e7]
  refine ⟨by norm_num, by norm_num, ?_⟩
  rw [ha, hb]
  exact lt_irrefl 0

/-- C7 amended: holding the residual-variance term fixed at a POSITIVE value,
increasing the number of states (keeping it below nChannels - 1) strictly
increases the criterion; at residual variance 0 the criterion is 0 for every
state count. -/
theorem cv_criterion_step_strictMono {var : ℝ} {C K1 K2 : ℕ} (hvar : 0 < var)
    (h12 : K1 < K2) (h2 : K2 < C - 1) :
    cv_criterion_step var C K1 < cv_criterion_step var C K2 := by
  have h2' : K2 + 1 < C := by omega
  have hK2R : ((K2 : ℝ)) + 1 < (C : ℝ) := by exact_mod_cast h2'
  have hK12R : ((K1 : ℝ)) < (K2 : ℝ) := by exact_mod_cast h12
  have hK2pos : (1 : ℝ) ≤ (K2 : ℝ) := by
    have : 1 ≤ K2 := by omega
    exact_mod_cast this
  have hd2 : (0 : ℝ) < (C : ℝ) - (K2 : ℝ) - 1 := by linarith
  have hd12 : (C : ℝ) - (K2 : ℝ) - 1 < (C : ℝ) - (K1 : ℝ) - 1 := by linarith
  have hC1 : (0 : ℝ) < (C : ℝ) - 1 := by linarith
  unfold cv_criterion_step
  have hnum : (0 : ℝ) < var * ((C : ℝ) - 1) ^ 2 := mul_pos hvar (pow_pos hC1 2)
  have hdd : ((C : ℝ) - (K2 : ℝ) - 1) ^ 2 < ((C : ℝ) - (K1 : ℝ) - 1) ^ 2 := by
    apply pow_lt_pow_left hd12 hd2.le
    norm_num
  exact div_lt_div_of_pos_left hnum (pow_pos hd2 2) hdd

/-- Witness for the amended C7 at var = 1, 4 channels, 1 vs 2 states. -/
theorem cv_criterion_step_strictMono_witness :
    (0 : ℝ) < 1 ∧ (1 : ℕ) < 2 ∧ (2 : ℕ) < 4 - 1 ∧
    cv_criterion_step 1 4 1 < cv_criterion_step 1 4 2 :=
  ⟨by norm_num, by norm_num, by norm_num,
    cv_criterion_step_strictMono (by norm_num) (by norm_num) (by norm_num)⟩

/-- The square matrix `[[1, 2], [3, 7]]`. -/
def m8 : Fin 2 → Fin 2 → ℝ := fun i j =>
  if i = 0 then (if j = 0 then 1 else 2) else (if j = 0 then 3 else 7)

/-- C8: with `axis = 1` the code does not compute per-row correlations.
`np.mean(A, axis=1)` and `np.linalg.norm(An, axis=1)` have shape `(n,)` and
broadcast against the LAST axis, so on the square matrix `[[1, 2], [3, 7]]`
the first output entry is `1357/925 ≈ 1.467` (not even inside [-1, 1]),
whereas the correlation of the non-constant first row with itself is 1.
(On non-square input the same mis-broadcast raises a shape error.) -/
theorem correlate_vectors_axis1_not_rowwise :
    correlate_vectors_axis1 m8 m8 0 = 1357 / 925 ∧
    corrPair (m8 0) (m8 0) = 1 := by
  constructor
  · simp only [correlate_vectors_axis1]
    rw [Fin.sum_univ_two]
    have hm0 : np_mean (m8 0) = 3 / 2 := by
      norm_num [np_mean, Fin.sum_univ_two, m8]
    have hm1 : np_mean (m8 1) = 5 := by
      norm_num [np_mean, Fin.sum_univ_two, m8]
    have hN0 : euclidean_norm (fun j : Fin 2 => m8 0 j - np_mean (m8 j)) =
        Real.sqrt (37 / 4) := by
      unfold euclidean_norm
      congr 1
      rw [Fin.sum_univ_two]
      norm_num [m8, hm0, hm1]
    have hN1 : euclidean_norm (fun j : Fin 2 => m8 1 j - np_mean (m8 j)) =
        Real.sqrt (25 / 4) := by
      unfold euclidean_norm
      congr 1
      rw [Fin.sum_univ_two]
      norm_num [m8, hm0, hm1]
    rw [hN0, hN1, hm0, hm1]
    rw [div_mul_div_comm, div_mul_div_comm]
    rw [Real.mul_self_sqrt (by norm_num : (0:ℝ) ≤ 37 / 4),
      Real.mul_self_sqrt (by norm_num : (0:ℝ) ≤ 25 / 4)]
    norm_num [m8]
  · exact corrPair_self ⟨0, 1, by norm_num [m8]⟩

/-- C3: with nChannels = C, nSamples = T, all gfp entries nonzero and the
state count below C - 1, `microstates_crossvalidation` returns
`((Σ eeg²) - Σ_t (eeg[:,t]·microstates[a(t)])²) / (T·(C-1)) · (C-1)²/(C-(K+1)-1)²`
where `a(t)` is the argmax over states k of the squared value of
`(eeg[:,t]·microstates[k]) / (C · gfp[t] · std(microstates[k]))`. -/
theorem crossvalidation_formula {C T K : ℕ} (eeg : Fin C → Fin T → ℝ)
    (microstates : Fin (K + 1) → Fin C → ℝ) (gfp : Fin T → ℝ)
    (hgfp : ∀ t, gfp t ≠ 0) (hK : K + 1 < C - 1) :
    microstates_crossvalidation eeg microstates gfp C T =
      ((∑ t, ∑ c, (eeg c t) ^ 2) -
          ∑ t, (∑ c, microstates (np_argmax fun k =>
              ((∑ c2, eeg c2 t * microstates k c2) /
                ((C : ℝ) * (gfp t * np_std (microstates k)))) ^ 2) c * eeg c t) ^ 2) /
        ((T : ℝ) * ((C : ℝ) - 1)) * ((C : ℝ) - 1) ^ 2 /
        ((C : ℝ) - ((K : ℝ) + 1) - 1) ^ 2 := by
  simp only [microstates_crossvalidation, cv_criterion_step]
  push_cast
  ring_nf

/-- Witness inputs for C3: 4 channels, 1 sample, 1 state. -/
def e3 : Fin 4 → Fin 1 → ℝ := fun _ _ => 1

def m3 : Fin 1 → Fin 4 → ℝ := fun _ c => if c = 0 then 1 else 0

def g3 : Fin 1 → ℝ := fun _ => 1

/-- Witness for C3 at the concrete inputs above. -/
theorem crossvalidation_formula_witness :
    (∀ t, g3 t ≠ 0) ∧ (0 + 1 < 4 - 1) ∧
    microstates_crossvalidation e3 m3 g3 4 1 =
      ((∑ t, ∑ c, (e3 c t) ^ 2) -
          ∑ t, (∑ c, m3 (np_argmax fun k =>
              ((∑ c2, e3 c2 t * m3 k c2) /
                ((4 : ℝ) * (g3 t * np_std (m3 k)))) ^ 2) c * e3 c t) ^ 2) /
        ((1 : ℝ) * ((4 : ℝ) - 1)) * ((4 : ℝ) - 1) ^ 2 /
        ((4 : ℝ) - ((0 : ℝ) + 1) - 1) ^ 2 := by
  refine ⟨fun t => by norm_num [g3], by norm_num, ?_⟩
  have h := crossvalidation_formula e3 m3 g3 (fun t => by norm_num [g3])
    (by norm_num)
  exact_mod_cast h

theorem negRow_dot_sq {C K : ℕ} (ms : Fin K → Fin C → ℝ) (k a : Fin K)
    (w : Fin C → ℝ) :
    (∑ c, negRow ms k a c * w c) ^ 2 = (∑ c, ms a c * w c) ^ 2 := by
  by_cases h : a = k
  · have h1 : (∑ c, negRow ms k a c * w c) = - ∑ c, ms a c * w c := by
      rw [← Finset.sum_neg_distrib]
      refine Finset.sum_congr rfl fun c _ => ?_
      simp [negRow, h]
    rw [h1, neg_sq]
  · have h1 : negRow ms k a = ms a := by
      funext c
      simp [negRow, h]
    rw [h1]

theorem negRow_cluster_sq {C K : ℕ} (ms : Fin K → Fin C → ℝ) (k j : Fin K)
    (w : Fin C → ℝ) (x y : ℝ) :
    ((∑ c, w c * negRow ms k j c) / (x * (y * np_std (negRow ms k j)))) ^ 2 =
      ((∑ c, w c * ms j c) / (x * (y * np_std (ms j)))) ^ 2 := by
  by_cases h : j = k
  · have h1 : (∑ c, w c * negRow ms k j c) = - ∑ c, w c * ms j c := by
      rw [← Finset.sum_neg_distrib]
      refine Finset.sum_congr rfl fun c _ => ?_
      simp [negRow, h]
    have h2 : np_std (negRow ms k j) = np_std (ms j) := by
      have heq : negRow ms k j = fun c => - ms j c := by
        funext c
        simp [negRow, h]
      rw [heq, np_std_neg]
    rw [h1, h2, neg_div, neg_sq]
  · have h1 : negRow ms k j = ms j := by
      funext c
      simp [negRow, h]
    rw [h1]

theorem gev_negRow {C T K : ℕ} (eeg : Fin C → Fin T → ℝ)
    (ms : Fin K → Fin C → ℝ) (seg : Fin T → Fin K) (gfp : Fin T → ℝ)
    (k : Fin K) :
    microstates_gev eeg (negRow ms k) seg gfp =
      microstates_gev eeg ms seg gfp := by
  simp only [microstates_gev]
  congr 1
  refine Finset.sum_congr rfl fun t _ => ?_
  simp only [correlate_vectors_apply]
  by_cases h : seg t = k
  · have hcol : (fun c => negRow ms k (seg t) c) = fun c => - ms (seg t) c := by
      funext c
      simp [negRow, h]
    rw [hcol, corrPair_neg_right]
    ring
  · have hcol : (fun c => negRow ms k (seg t) c) = fun c => ms (seg t) c := by
      funext c
      simp [negRow, h]
    rw [hcol]

theorem crossvalidation_negRow {C T K : ℕ} (eeg : Fin C → Fin T → ℝ)
    (ms : Fin (K + 1) → Fin C → ℝ) (gfp : Fin T → ℝ) (k : Fin (K + 1))
    (nc ns : ℕ) :
    microstates_crossvalidation eeg (negRow ms k) gfp nc ns =
      microstates_crossvalidation eeg ms gfp nc ns := by
  have hargmax : ∀ t : Fin T,
      (np_argmax fun j => ((∑ c, eeg c t * negRow ms k j c) /
        ((nc : ℝ) * (gfp t * np_std (negRow ms k j)))) ^ 2) =
      np_argmax fun j => ((∑ c, eeg c t * ms j c) /
        ((nc : ℝ) * (gfp t * np_std (ms j)))) ^ 2 := by
    intro t
    congr 1
    funext j
    exact negRow_cluster_sq ms k j (fun c => eeg c t) (nc : ℝ) (gfp t)
  have key : ∀ t : Fin T,
      (∑ c, negRow ms k (np_argmax fun j => ((∑ c2, eeg c2 t * negRow ms k j c2) /
          ((nc : ℝ) * (gfp t * np_std (negRow ms k j)))) ^ 2) c * eeg c t) ^ 2 =
      (∑ c, ms (np_argmax fun j => ((∑ c2, eeg c2 t * ms j c2) /
          ((nc : ℝ) * (gfp t * np_std (ms j)))) ^ 2) c * eeg c t) ^ 2 := by
    intro t
    rw [hargmax t]
    exact negRow_dot_sq ms k _ (fun c => eeg c t)
  simp only [microstates_crossvalidation]
  rw [Finset.sum_congr rfl fun t _ => key t]

/-- C10: negating one row of the microstates matrix (multiplying it by -1)
leaves the value of `microstates_gev` unchanged, and likewise leaves the value
of `microstates_crossvalidation` unchanged: both functions square every term
the microstate sign enters (the gfp-weighted correlation in GEV; the argmax
over squared normalized projections and the squared dot products in the
criterion). -/
theorem polarity_invariance {C T K C2 T2 K2 : ℕ}
    (eeg : Fin C → Fin T → ℝ) (ms : Fin K → Fin C → ℝ)
    (seg : Fin T → Fin K) (gfp : Fin T → ℝ) (k : Fin K)
    (eeg2 : Fin C2 → Fin T2 → ℝ) (ms2 : Fin (K2 + 1) → Fin C2 → ℝ)
    (gfp2 : Fin T2 → ℝ) (k2 : Fin (K2 + 1)) (nc ns : ℕ) :
    microstates_gev eeg (negRow ms k) seg gfp =
      microstates_gev eeg ms seg gfp ∧
    microstates_crossvalidation eeg2 (negRow ms2 k2) gfp2 nc ns =
      microstates_crossvalidation eeg2 ms2 gfp2 nc ns :=
  ⟨gev_negRow eeg ms seg gfp k,
    crossvalidation_negRow eeg2 ms2 gfp2 k2 nc ns⟩

end MicrostatesQuality
